import Mathlib

set_option maxRecDepth 10000

/-!
Verification of the olysched schedule formatter (src/olysched/main.py).

Strings are modelled as lists of Unicode code points (`List Nat`); Python's
ASCII case mapping (`str.capitalize`, `str.lower`) is modelled on code points.
The time converter `convert_to_aest(...).strftime(...)` and the report date
`today.strftime('%-d %B')` are external collaborators (pytz/dateutil); they
enter the model as an abstract rendering function `rt : Str → Str` and an
abstract date line, exactly where the source calls them.  Fallible code
(Python IndexError / StopIteration / pydantic validation errors) is modelled
with `Option` / `Except`.
-/

/-- Code-point string, the model of a Python `str`. -/
abbrev Str := List Nat

/-- Convert a Lean string literal to its code-point model. -/
def str (s : String) : Str := s.data.map Char.toNat

/-- ASCII lower-casing of one code point, modelling Python `str.lower` per char. -/
def lowerChar (n : Nat) : Nat := if 65 ≤ n ∧ n ≤ 90 then n + 32 else n

/-- ASCII upper-casing of one code point, modelling Python `str.upper` per char. -/
def upperChar (n : Nat) : Nat := if 97 ≤ n ∧ n ≤ 122 then n - 32 else n

/-- ASCII whitespace, the separators of Python `str.split()` / `str.strip()`. -/
def isWs (n : Nat) : Bool := decide (n = 9 ∨ n = 10 ∨ n = 11 ∨ n = 12 ∨ n = 13 ∨ n = 32)

/-- ASCII decimal digit, as matched by the regex class `\d` on ASCII input. -/
def isDigit (n : Nat) : Bool := decide (48 ≤ n ∧ n ≤ 57)

/-- Python `s.lower()`. -/
def toLowerStr (s : Str) : Str := s.map lowerChar

/-- Python `s.capitalize()`: first character upper-cased, the rest lower-cased. -/
def capitalize : Str → Str
  | [] => []
  | c :: cs => upperChar c :: cs.map lowerChar

/-- Python `s.split()`, accumulator-based: maximal runs of non-whitespace. -/
def splitWSAux : Str → Str → List Str
  | [], acc => if acc.isEmpty then [] else [acc.reverse]
  | c :: cs, acc =>
    if isWs c then
      if acc.isEmpty then splitWSAux cs [] else acc.reverse :: splitWSAux cs []
    else splitWSAux cs (c :: acc)

/-- Python `s.split()` (no separator argument): whitespace runs are dropped. -/
def splitWS (s : Str) : List Str := splitWSAux s []

/-- Python `s.split(sep)` for a one-character separator: empty pieces are kept. -/
def splitOnChar (sep : Nat) : Str → List Str
  | [] => [[]]
  | c :: cs =>
    if c = sep then [] :: splitOnChar sep cs
    else (splitOnChar sep cs).modifyHead fun q => c :: q

/-- Python `sep.join(pieces)`. -/
def joinSep (sep : Str) : List Str → Str
  | [] => []
  | [x] => x
  | x :: xs => x ++ sep ++ joinSep sep xs

/-- Python `s.strip()`: drop leading and trailing whitespace. -/
def trimStr (s : Str) : Str :=
  ((s.dropWhile fun c => isWs c).reverse.dropWhile fun c => isWs c).reverse

/-- The fixed particle set of `format_name` in the source
(`["von", "van", "de", "du", "la", "le"]`). -/
def particles : List Str := [str "von", str "van", str "de", str "du", str "la", str "le"]

/-- Loop body of `capitalize_name` in the source: one whitespace-separated token. -/
def formatPart (part : Str) : Str :=
  if toLowerStr part ∈ particles then toLowerStr part
  else if 45 ∈ part then joinSep [45] ((splitOnChar 45 part).map capitalize)
  else capitalize part

/-- The inner `capitalize_name` of `format_name` in the source. -/
def capitalize_name (n : Str) : Str := joinSep [32] ((splitWS n).map formatPart)

/-- The source's `format_name`: split on "/" for pairs, else capitalize one name.
Code point 47 is '/'. -/
def format_name (name : Str) : Str :=
  if 47 ∈ name then
    joinSep (str " / ") ((splitOnChar 47 name).map fun n => capitalize_name (trimStr n))
  else capitalize_name name

/-- Drop a leading run of ASCII digits. -/
def dropDigits : Str → Str
  | [] => []
  | c :: cs => if isDigit c then dropDigits cs else c :: cs

/-- Take a leading run of ASCII digits. -/
def takeDigits : Str → Str
  | [] => []
  | c :: cs => if isDigit c then c :: takeDigits cs else []

/-- Try to match the regex " - Race \d+" at the start of `s` (leftmost-anchored,
greedy digits); on success return the remainder after the match. -/
def stripRaceMatch (s : Str) : Option Str :=
  if s.take 8 = str " - Race " then
    match s.drop 8 with
    | [] => none
    | d :: ds => if isDigit d then some (dropDigits ds) else none
  else none

/-- Fuelled scan for `re.sub(r" - Race \d+", "", s)`: at each position either the
pattern matches (consuming at least nine characters) and scanning resumes after
the match, or one character is emitted.  Each step consumes at least one input
character, so fuel equal to the input length never runs out. -/
def stripRaceFuel : Nat → Str → Str
  | 0, s => s
  | _ + 1, [] => []
  | fuel + 1, c :: cs =>
    match stripRaceMatch (c :: cs) with
    | some r => stripRaceFuel fuel r
    | none => c :: stripRaceFuel fuel cs

/-- The source's `re.sub(r" - Race \d+", "", event.eventUnitName)`. -/
def stripRace (s : Str) : Str := stripRaceFuel s.length s

/-- Try to match the regex "Race (\d+)" at the start of `s`; on success return
the digit capture (greedy). -/
def raceNumAt (s : Str) : Option Str :=
  if s.take 5 = str "Race " then
    let ds := takeDigits (s.drop 5)
    if ds.isEmpty then none else some ds
  else none

/-- The source's `re.search(r"Race (\d+)", s)` digit capture: leftmost match wins. -/
def findRace : Str → Option Str
  | [] => none
  | c :: cs =>
    match raceNumAt (c :: cs) with
    | some ds => some ds
    | none => findRace cs

/-- A participant record; the model keeps the fields the program reads
(`code`, `noc`, `name`).  The source's `order` and `results` fields are
never read by the formatting logic. -/
structure Competitor where
  code : Str
  noc : Str
  name : Str
deriving DecidableEq

/-- One scheduled event unit; the model keeps the fields the formatting logic
reads (`disciplineName`, `eventUnitName`, `startDate` as the string the source
obtains via `str(event.startDate)`, `medalFlag`, `competitors`).  The source's
remaining pydantic fields are never read after validation. -/
structure EventUnit where
  disciplineName : Str
  eventUnitName : Str
  startDate : Str
  medalFlag : Int
  competitors : List Competitor
deriving DecidableEq

/-- The raw payload of one event unit before validation; `competitors` is
optional (pydantic `Field(default_factory=list)`). -/
structure RawEventUnit where
  disciplineName : Str
  eventUnitName : Str
  startDate : Str
  medalFlag : Int
  competitors : Option (List Competitor)
deriving DecidableEq

/-- Ingestion of one event unit: the `filter_competitors` model validator
(mode='before') drops every competitor whose code is "TBD" or whose name is
"TBD"; an absent competitors field becomes the empty list. -/
def mkEventUnit (raw : RawEventUnit) : EventUnit where
  disciplineName := raw.disciplineName
  eventUnitName := raw.eventUnitName
  startDate := raw.startDate
  medalFlag := raw.medalFlag
  competitors :=
    match raw.competitors with
    | none => []
    | some comps =>
      comps.filter fun c => decide (c.code ≠ str "TBD") && decide (c.name ≠ str "TBD")

/-- The validated schedule model (`OlympicSchedule`). -/
structure OlympicSchedule where
  units : List EventUnit
deriving DecidableEq

/-- Construction of `OlympicSchedule(**schedule_data)`: the `units` field is a
required pydantic field with no default, so a payload without it fails
validation; `none` models an absent `units` field. -/
def mkOlympicSchedule : Option (List RawEventUnit) → Except Unit OlympicSchedule
  | none => Except.error ()
  | some raws => Except.ok ⟨raws.map mkEventUnit⟩

/-- Grouping key: (disciplineName, eventUnitName with race suffixes removed). -/
abbrev GroupKey := Str × Str

/-- The key computed in the loop of `group_events`. -/
def eventKey (e : EventUnit) : GroupKey := (e.disciplineName, stripRace e.eventUnitName)

/-- One step of `grouped_events[key].append(event)` on an insertion-ordered
mapping (Python dicts preserve insertion order). -/
def insertGrouped (gs : List (GroupKey × List EventUnit)) (k : GroupKey) (e : EventUnit) :
    List (GroupKey × List EventUnit) :=
  match gs with
  | [] => [(k, [e])]
  | (k', es) :: rest =>
    if k' = k then (k', es ++ [e]) :: rest else (k', es) :: insertGrouped rest k e

/-- The source's `group_events`: a defaultdict(list) filled left to right. -/
def group_events (events : List EventUnit) : List (GroupKey × List EventUnit) :=
  events.foldl (fun gs e => insertGrouped gs (eventKey e) e) []

/-- The target country code. -/
def ausStr : Str := str "AUS"

/-- Does an event have at least one competitor with NOC "AUS"?  This is the
filter applied in the list comprehension at the start of `format_schedule`. -/
def hasAus (e : EventUnit) : Bool := e.competitors.any fun c => decide (c.noc = ausStr)

/-- The comprehension `[comp for event in events for comp in event.competitors
if comp.noc == "AUS"]`. -/
def ausCompetitors (events : List EventUnit) : List Competitor :=
  events.flatMap fun e => e.competitors.filter fun c => decide (c.noc = ausStr)

/-- First occurrence of each element, in order of first appearance.  Used to
state properties of Python dict key order and of `set(...)`. -/
def firstOccur {α : Type} [DecidableEq α] : List α → List α
  | [] => []
  | x :: xs => x :: (firstOccur xs).filter fun y => decide (y ≠ x)

/-- Python `sorted(set(l))` for strings: the distinct elements in lexicographic
code-point order (the `≤` of `List Nat` is the lexicographic order). -/
def pySortedSet (l : List Str) : List Str := List.insertionSort (· ≤ ·) (firstOccur l)

/-- The multi-competitor bullet block: the source's
`for competitor in sorted(set(comp.name for comp in australian_competitors))`
loop, each iteration appending "* {format_name(competitor)}\n". -/
def multiBullets (names : List Str) : Str :=
  ((pySortedSet names).map fun n => str "* " ++ format_name n ++ str "\n").flatten

/-- The group title "{discipline}: {event_name}", with the medal glyph prefix
when any event of the group has medalFlag == 1. -/
def groupTitle (discipline event_name : Str) (events : List EventUnit) : Str :=
  let t := discipline ++ str ": " ++ event_name
  if events.any (fun e => decide (e.medalFlag = 1)) then str "🏅 " ++ t else t

/-- The "#### Races: ..." sub-line: race numbers extracted from each event's
unit name via `re.search(r"Race (\d+)", ...)`, events without a match omitted. -/
def racesLine (events : List EventUnit) : Str :=
  str "#### Races: " ++ joinSep (str ", ") (events.filterMap fun e => findRace e.eventUnitName)
    ++ str "\n"

/-- The per-group heading: start–end time range plus races sub-line when the
group has more than one event with an AUS competitor, otherwise start time
only.  `rt` models `convert_to_aest(str(...)).strftime('%H:%M')` and is applied
to `events[0].startDate` and, in the range case, `events[-1].startDate`. -/
def groupHeading (rt : Str → Str) (discipline event_name : Str) (events : List EventUnit)
    (e0 : EventUnit) : Str :=
  let start_time := rt e0.startDate
  let title := groupTitle discipline event_name events
  if (events.filter hasAus).length > 1 then
    let end_time := rt ((events.getLast?).getD e0).startDate
    str "### " ++ start_time ++ str " - " ++ end_time ++ str " - " ++ title ++ str "\n"
      ++ racesLine events
  else
    str "### " ++ start_time ++ str " - " ++ title ++ str "\n"

/-- The head-to-head bullet line of `format_schedule`. -/
def headToHead (aus_comp opponent : Competitor) : Str :=
  let aus_name := format_name aus_comp.name
  let opp_name := format_name opponent.name
  let opp_country := opponent.noc
  if aus_name = str "Australia" then str "* AUS vs " ++ opp_country ++ str "\n"
  else
    str "* " ++ aus_name ++ str " (AUS) vs " ++ opp_name ++ str " (" ++ opp_country
      ++ str ")\n"

/-- Body of the per-group loop of `format_schedule`.  Returns the text the
iteration appends; `some []` models `continue`, `none` models the unreachable
failure points (`events[0]` on an empty group, `next(...)` finding no
opponent, i.e. IndexError / StopIteration). -/
def renderGroup (rt : Str → Str) (discipline event_name : Str) (events : List EventUnit) :
    Option Str :=
  let australian_competitors := ausCompetitors events
  if australian_competitors.isEmpty then some [] else
  match events with
  | [] => none
  | e0 :: rest =>
    let heading := groupHeading rt discipline event_name (e0 :: rest) e0
    if australian_competitors.length = 1 ∧ e0.competitors.length = 2 then
      match australian_competitors.head?,
            e0.competitors.find? (fun c => decide (c.noc ≠ ausStr)) with
      | some aus_comp, some opponent => some (heading ++ headToHead aus_comp opponent ++ str "\n")
      | _, _ => none
    else
      some (heading ++ multiBullets (australian_competitors.map fun c => c.name) ++ str "\n")

/-- The fixed sentinel returned for an empty schedule. -/
def noDataMsg : Str := str "No schedule data available."

/-- The report header: fixed title line plus the date line, as built at the top
of `format_schedule`; `todayLine` models `today.strftime('%-d %B')`. -/
def reportHeader (todayLine : Str) : Str :=
  str "# 🇦🇺 Olympic Events\n\n## " ++ todayLine ++ str "\n\n"

/-- The source's `format_schedule(self, today)` on `self.units`: filter to
events with an AUS competitor, group, then append each group's block. -/
def format_schedule (rt : Str → Str) (todayLine : Str) (units : List EventUnit) : Option Str :=
  if units.isEmpty then some noDataMsg
  else
    (((group_events (units.filter hasAus)).mapM
        fun p : GroupKey × List EventUnit => renderGroup rt p.1.1 p.1.2 p.2 : Option (List Str)).map
      fun blocks => reportHeader todayLine ++ blocks.flatten : Option Str)

/-- Lookup in an insertion-ordered key/value list, for stating properties of
the grouping. -/
def lookupKey : List (GroupKey × List EventUnit) → GroupKey → Option (List EventUnit)
  | [], _ => none
  | (k', v) :: rest, k => if k' = k then some v else lookupKey rest k

/-- Number of positions at which `pat` occurs in `s`. -/
def countOccur (pat : Str) : Str → Nat
  | [] => 0
  | c :: cs => (if (c :: cs).take pat.length = pat then 1 else 0) + countOccur pat cs

/-- Time renderer used in concrete checks: renders every timestamp as "00:00". -/
def rtFixed : Str → Str := fun _ => str "00:00"

/-- Concrete event with two AUS competitors whose raw names differ only in
letter case, so both format to "Jane Doe". -/
def dupNameEvent : EventUnit where
  disciplineName := str "Swimming"
  eventUnitName := str "Heat 1"
  startDate := str "2024-07-27 09:00:00+00:00"
  medalFlag := 1
  competitors :=
    [ { code := str "c1", noc := str "AUS", name := str "jane doe" },
      { code := str "c2", noc := str "AUS", name := str "Jane doe" },
      { code := str "c3", noc := str "USA", name := str "amy smith" } ]

/-- The AUS team-placeholder competitor of the concrete head-to-head event. -/
def ausTeamComp : Competitor where
  code := str "c1"
  noc := str "AUS"
  name := str "Australia"

/-- Concrete head-to-head event: the AUS team entry versus a USA player. -/
def h2hEvent : EventUnit where
  disciplineName := str "Hockey"
  eventUnitName := str "Final"
  startDate := str "2024-07-27 10:00:00+00:00"
  medalFlag := 1
  competitors :=
    [ ausTeamComp,
      { code := str "c2", noc := str "USA", name := str "John Smith" } ]

/-- Concrete race event with a race-number suffix, for the multi-event
heading check. -/
def raceEvent1 : EventUnit where
  disciplineName := str "Rowing"
  eventUnitName := str "Heat - Race 2"
  startDate := str "2024-07-27 11:00:00+00:00"
  medalFlag := 0
  competitors := [ { code := str "c4", noc := str "AUS", name := str "Jo Roe" } ]

/-- Concrete race event without a race number. -/
def raceEvent2 : EventUnit where
  disciplineName := str "Rowing"
  eventUnitName := str "Final"
  startDate := str "2024-07-27 12:00:00+00:00"
  medalFlag := 1
  competitors := [ { code := str "c4", noc := str "AUS", name := str "Jo Roe" } ]

/-- Concrete event whose competitors are all non-AUS. -/
def usaOnlyEvent : EventUnit where
  disciplineName := str "Swimming"
  eventUnitName := str "Heat 2"
  startDate := str "2024-07-27 13:00:00+00:00"
  medalFlag := 0
  competitors := [ { code := str "c5", noc := str "USA", name := str "Amy Smith" } ]

/-- Competitor kept by the TBD ingestion filter in the concrete check. -/
def alexComp : Competitor where
  code := str "c6"
  noc := str "AUS"
  name := str "Alex Roe"

/-- Concrete raw event unit containing a TBD placeholder competitor. -/
def rawWithTBD : RawEventUnit where
  disciplineName := str "Tennis"
  eventUnitName := str "Final"
  startDate := str "2024-07-27 14:00:00+00:00"
  medalFlag := 1
  competitors := some
    [ alexComp,
      { code := str "TBD", noc := str "", name := str "TBD" } ]

/-- Specification-side description of the grouping, following the claim's
wording: one entry per first-encountered key, carrying the subsequence of
input events with that key, in input order.  Compared against `group_events`
below. -/
def groupEventsSpec (events : List EventUnit) : List (GroupKey × List EventUnit) :=
  (firstOccur (events.map eventKey)).map fun k =>
    (k, events.filter fun e => decide (eventKey e = k))

example : format_name (str "smith-jones") = str "Smith-Jones" := by decide

example : format_name (str "a/b") = str "A / B" := by decide

example : stripRace (str "100m Freestyle - Race 1") = str "100m Freestyle" := by decide

example : findRace (str "Heat - Race 2") = some (str "2") := by decide

example : findRace (str "Final") = none := by decide

/-! ### Character-level lemmas -/

theorem lowerChar_lowerChar (n : Nat) : lowerChar (lowerChar n) = lowerChar n := by
  unfold lowerChar; split <;> (try split) <;> omega

theorem lowerChar_upperChar (n : Nat) : lowerChar (upperChar n) = lowerChar n := by
  unfold lowerChar upperChar; split <;> (try split) <;> (try split) <;> omega

theorem upperChar_upperChar (n : Nat) : upperChar (upperChar n) = upperChar n := by
  unfold upperChar; split <;> (try split) <;> omega

theorem isWs_lowerChar (n : Nat) : isWs (lowerChar n) = isWs n := by
  unfold isWs lowerChar; split <;> [rw [decide_eq_decide]; rfl]; omega

theorem isWs_upperChar (n : Nat) : isWs (upperChar n) = isWs n := by
  unfold isWs upperChar; split <;> [rw [decide_eq_decide]; rfl]; omega

theorem lowerChar_eq_hyphen {n : Nat} : lowerChar n = 45 ↔ n = 45 := by
  unfold lowerChar; split <;> omega

theorem upperChar_eq_hyphen {n : Nat} : upperChar n = 45 ↔ n = 45 := by
  unfold upperChar; split <;> omega

theorem lowerChar_eq_slash {n : Nat} : lowerChar n = 47 ↔ n = 47 := by
  unfold lowerChar; split <;> omega

theorem upperChar_eq_slash {n : Nat} : upperChar n = 47 ↔ n = 47 := by
  unfold upperChar; split <;> omega

/-! ### Join and split lemmas -/

theorem joinSep_cons_cons (sep x y : Str) (xs : List Str) :
    joinSep sep (x :: y :: xs) = x ++ sep ++ joinSep sep (y :: xs) := rfl

theorem mem_joinSep {sep : Str} {l : List Str} {c : Nat} (h : c ∈ joinSep sep l) :
    c ∈ sep ∨ ∃ x ∈ l, c ∈ x := by
  induction l with
  | nil => simp [joinSep] at h
  | cons x xs ih =>
    cases xs with
    | nil => exact Or.inr ⟨x, by simp, by simpa [joinSep] using h⟩
    | cons y ys =>
      rw [joinSep_cons_cons] at h
      rcases List.mem_append.1 h with h1 | h2
      · rcases List.mem_append.1 h1 with h3 | h4
        · exact Or.inr ⟨x, by simp, h3⟩
        · exact Or.inl h4
      · rcases ih h2 with h3 | ⟨z, hz, hcz⟩
        · exact Or.inl h3
        · exact Or.inr ⟨z, by simp [hz], hcz⟩

theorem sep_mem_joinSep {sep : Str} {l : List Str} (h : 2 ≤ l.length) {c : Nat}
    (hc : c ∈ sep) : c ∈ joinSep sep l := by
  rcases l with _ | ⟨x, _ | ⟨y, xs⟩⟩
  · simp at h
  · simp at h
  · rw [joinSep_cons_cons]
    exact List.mem_append.2 (Or.inl (List.mem_append.2 (Or.inr hc)))

theorem splitOnChar_cons_self (sep : Nat) (cs : Str) :
    splitOnChar sep (sep :: cs) = [] :: splitOnChar sep cs := by
  simp [splitOnChar]

theorem splitOnChar_cons_ne (sep c : Nat) (cs : Str) (h : c ≠ sep) :
    splitOnChar sep (c :: cs) = (splitOnChar sep cs).modifyHead fun q => c :: q := by
  simp [splitOnChar, h]

theorem splitOnChar_ne_nil (sep : Nat) (s : Str) : splitOnChar sep s ≠ [] := by
  induction s with
  | nil => simp [splitOnChar]
  | cons c cs ih =>
    by_cases h : c = sep
    · subst h; rw [splitOnChar_cons_self]; simp
    · rw [splitOnChar_cons_ne _ _ _ h]
      cases hL : splitOnChar sep cs with
      | nil => exact absurd hL ih
      | cons q qs => simp

theorem splitOnChar_append {sep : Nat} {x : Str} (hx : sep ∉ x) (s : Str) :
    splitOnChar sep (x ++ s) = (splitOnChar sep s).modifyHead fun q => x ++ q := by
  induction x with
  | nil =>
    rw [List.nil_append]
    cases splitOnChar sep s <;> simp
  | cons c x' ih =>
    have hc : c ≠ sep := by intro e; exact hx (by simp [e])
    have hx' : sep ∉ x' := fun m => hx (by simp [m])
    rw [List.cons_append, splitOnChar_cons_ne _ _ _ hc, ih hx']
    cases splitOnChar sep s <;> simp

theorem mem_of_mem_splitOnChar {sep : Nat} {s q : Str} (hq : q ∈ splitOnChar sep s) :
    ∀ c ∈ q, c ∈ s := by
  induction s generalizing q with
  | nil =>
    simp [splitOnChar] at hq
    subst hq; simp
  | cons a as ih =>
    intro c hcq
    by_cases h : a = sep
    · subst h
      rw [splitOnChar_cons_self] at hq
      rcases List.mem_cons.1 hq with rfl | hq
      · simp at hcq
      · exact List.mem_cons.2 (Or.inr (ih hq c hcq))
    · rw [splitOnChar_cons_ne _ _ _ h] at hq
      cases hL : splitOnChar sep as with
      | nil => exact absurd hL (splitOnChar_ne_nil _ _)
      | cons q0 qs =>
        rw [hL] at hq
        simp only [List.modifyHead] at hq
        rcases List.mem_cons.1 hq with rfl | hq
        · rcases List.mem_cons.1 hcq with rfl | hcq
          · simp
          · exact List.mem_cons.2 (Or.inr (ih (by rw [hL]; simp) c hcq))
        · exact List.mem_cons.2 (Or.inr (ih (by rw [hL]; simp [hq]) c hcq))

theorem sep_not_mem_splitOnChar {sep : Nat} {s q : Str} (hq : q ∈ splitOnChar sep s) :
    sep ∉ q := by
  induction s generalizing q with
  | nil =>
    simp [splitOnChar] at hq
    subst hq; simp
  | cons a as ih =>
    by_cases h : a = sep
    · subst h
      rw [splitOnChar_cons_self] at hq
      rcases List.mem_cons.1 hq with rfl | hq
      · simp
      · exact ih hq
    · rw [splitOnChar_cons_ne _ _ _ h] at hq
      cases hL : splitOnChar sep as with
      | nil => exact absurd hL (splitOnChar_ne_nil _ _)
      | cons q0 qs =>
        rw [hL] at hq
        simp only [List.modifyHead] at hq
        rcases List.mem_cons.1 hq with rfl | hq
        · intro hm
          rcases List.mem_cons.1 hm with e | hm
          · exact h e.symm
          · exact ih (by rw [hL]; simp) hm
        · exact ih (by rw [hL]; simp [hq])

theorem two_le_length_splitOnChar {sep : Nat} {s : Str} (h : sep ∈ s) :
    2 ≤ (splitOnChar sep s).length := by
  induction s with
  | nil => simp at h
  | cons a as ih =>
    by_cases ha : a = sep
    · subst ha
      rw [splitOnChar_cons_self]
      have h1 : 0 < (splitOnChar a as).length :=
        List.length_pos.2 (splitOnChar_ne_nil _ _)
      simpa using h1
    · have h' : sep ∈ as := by
        rcases List.mem_cons.1 h with e | h'
        · exact absurd e.symm ha
        · exact h'
      rw [splitOnChar_cons_ne _ _ _ ha]
      cases hL : splitOnChar sep as with
      | nil => exact absurd hL (splitOnChar_ne_nil _ _)
      | cons q0 qs =>
        have := ih h'
        rw [hL] at this
        simpa using this

theorem splitOnChar_joinSep {sep : Nat} {ps : List Str} (hne : ps ≠ [])
    (hp : ∀ p ∈ ps, sep ∉ p) : splitOnChar sep (joinSep [sep] ps) = ps := by
  induction ps with
  | nil => exact absurd rfl hne
  | cons p ps' ih =>
    cases ps' with
    | nil =>
      have h1 : joinSep [sep] [p] = p ++ [] := by simp [joinSep]
      rw [h1, splitOnChar_append (hp p (by simp))]
      simp [splitOnChar]
    | cons p2 ps'' =>
      rw [joinSep_cons_cons, List.append_assoc, splitOnChar_append (hp p (by simp)),
        List.singleton_append, splitOnChar_cons_self,
        ih (by simp) (fun x hx => hp x (by simp [hx]))]
      simp

/-! ### Whitespace split lemmas -/

theorem splitWSAux_word {w : Str} (hw : ∀ c ∈ w, isWs c = false) :
    ∀ (cs acc : Str), splitWSAux (w ++ cs) acc = splitWSAux cs (w.reverse ++ acc) := by
  induction w with
  | nil => intro cs acc; simp
  | cons c w' ih =>
    intro cs acc
    have hc : isWs c = false := hw c (by simp)
    rw [List.cons_append]
    show splitWSAux (c :: (w' ++ cs)) acc = _
    rw [splitWSAux, hc]
    simp only [Bool.false_eq_true, if_false]
    rw [ih (fun d hd => hw d (by simp [hd])) cs (c :: acc)]
    simp

theorem splitWSAux_tokens {s : Str} :
    ∀ {acc : Str}, (∀ c ∈ acc, isWs c = false) →
      ∀ t ∈ splitWSAux s acc, t ≠ [] ∧ ∀ c ∈ t, isWs c = false := by
  induction s with
  | nil =>
    intro acc hacc t ht
    by_cases h : acc.isEmpty <;> simp [splitWSAux, h] at ht
    subst ht
    refine ⟨by simpa [List.isEmpty_iff] using h, ?_⟩
    intro c hc
    exact hacc c (List.mem_reverse.1 hc)
  | cons a as ih =>
    intro acc hacc t ht
    by_cases ha : isWs a
    · rw [splitWSAux, ha] at ht
      simp only [if_true] at ht
      by_cases h : acc.isEmpty
      · rw [if_pos h] at ht
        exact ih (by simp) t ht
      · rw [if_neg h] at ht
        rcases List.mem_cons.1 ht with rfl | ht
        · refine ⟨by simpa [List.isEmpty_iff] using h, ?_⟩
          intro c hc
          exact hacc c (List.mem_reverse.1 hc)
        · exact ih (by simp) t ht
    · rw [splitWSAux, eq_false_of_ne_true ha] at ht
      simp only [Bool.false_eq_true, if_false] at ht
      refine ih ?_ t ht
      intro c hc
      rcases List.mem_cons.1 hc with rfl | hc
      · exact eq_false_of_ne_true ha
      · exact hacc c hc

theorem splitWS_tokens {s : Str} : ∀ t ∈ splitWS s, t ≠ [] ∧ ∀ c ∈ t, isWs c = false :=
  splitWSAux_tokens (by simp)

theorem splitWS_joinSep {ts : List Str}
    (h : ∀ t ∈ ts, t ≠ [] ∧ ∀ c ∈ t, isWs c = false) :
    splitWS (joinSep [32] ts) = ts := by
  induction ts with
  | nil => rfl
  | cons t ts' ih =>
    cases ts' with
    | nil =>
      show splitWSAux (joinSep [32] [t]) [] = [t]
      have h1 : joinSep [32] [t] = t ++ [] := by simp [joinSep]
      rw [h1, splitWSAux_word (h t (by simp)).2]
      have h2 : (t.reverse ++ []).isEmpty = false := by
        simp [List.isEmpty_iff, (h t (by simp)).1]
      rw [splitWSAux, h2]
      simp
    | cons t2 ts'' =>
      show splitWSAux (joinSep [32] (t :: t2 :: ts'')) [] = t :: t2 :: ts''
      rw [joinSep_cons_cons, List.append_assoc, splitWSAux_word (h t (by simp)).2,
        List.singleton_append]
      rw [splitWSAux]
      have h32 : isWs 32 = true := by decide
      rw [h32]
      simp only [if_true]
      have h2 : (t.reverse ++ []).isEmpty = false := by
        simp [List.isEmpty_iff, (h t (by simp)).1]
      rw [h2]
      simp only [Bool.false_eq_true, if_false]
      have ih' := ih (fun x hx => h x (by simp [List.mem_cons.1 hx]))
      unfold splitWS at ih'
      rw [ih']
      simp

/-! ### Trim lemmas -/

theorem trimStr_cons_ws {c : Nat} (hc : isWs c = true) (s : Str) :
    trimStr (c :: s) = trimStr s := by
  unfold trimStr
  rw [List.dropWhile_cons, hc]
  simp

theorem trimStr_append_ws {c : Nat} (hc : isWs c = true) (s : Str) :
    trimStr (s ++ [c]) = trimStr s := by
  unfold trimStr
  rw [List.dropWhile_append]
  by_cases h : ((s.dropWhile fun d => isWs d).isEmpty)
  · rw [if_pos h]
    have h1 : (s.dropWhile fun d => isWs d) = [] := by simpa [List.isEmpty_iff] using h
    rw [h1]
    simp [List.dropWhile_cons, hc]
  · rw [if_neg h]
    rw [List.reverse_append]
    simp only [List.reverse_cons, List.reverse_nil, List.nil_append, List.singleton_append]
    rw [List.dropWhile_cons, hc]
    simp

theorem mem_trimStr {s : Str} {c : Nat} (hc : c ∈ trimStr s) : c ∈ s := by
  unfold trimStr at hc
  have h1 := List.mem_reverse.1 hc
  have h2 := (s.dropWhile fun d => isWs d).reverse.dropWhile_sublist (p := fun d => isWs d)
  have h3 := h2.mem h1
  have h4 := List.mem_reverse.1 h3
  exact (s.dropWhile_sublist (p := fun d => isWs d)).mem h4

/-! ### Capitalize and token lemmas -/

theorem toLowerStr_idem (p : Str) : toLowerStr (toLowerStr p) = toLowerStr p := by
  unfold toLowerStr
  rw [List.map_map]
  exact List.map_congr_left fun d _ => lowerChar_lowerChar d

theorem capitalize_idem (p : Str) : capitalize (capitalize p) = capitalize p := by
  cases p with
  | nil => rfl
  | cons a as =>
    show capitalize (upperChar a :: as.map lowerChar) = _
    rw [capitalize, upperChar_upperChar, List.map_map]
    simp only [Function.comp_def]
    rw [List.map_congr_left fun d _ => lowerChar_lowerChar d]
    rfl

theorem toLowerStr_capitalize (p : Str) : toLowerStr (capitalize p) = toLowerStr p := by
  cases p with
  | nil => rfl
  | cons a as =>
    show toLowerStr (upperChar a :: as.map lowerChar) = _
    unfold toLowerStr
    rw [List.map_cons, List.map_cons, lowerChar_upperChar, List.map_map]
    simp only [Function.comp_def]
    rw [List.map_congr_left fun d _ => lowerChar_lowerChar d]

theorem mem_capitalize {p : Str} {c : Nat} (h : c ∈ capitalize p) :
    ∃ d ∈ p, c = upperChar d ∨ c = lowerChar d := by
  cases p with
  | nil => simp [capitalize] at h
  | cons a as =>
    rw [capitalize] at h
    rcases List.mem_cons.1 h with rfl | h
    · exact ⟨a, by simp, Or.inl rfl⟩
    · rcases List.mem_map.1 h with ⟨d, hd, rfl⟩
      exact ⟨d, by simp [hd], Or.inr rfl⟩

theorem hyphen_mem_formatPart {t : Str} (h45 : (45 : Nat) ∈ t) :
    (45 : Nat) ∈ joinSep [45] ((splitOnChar 45 t).map capitalize) :=
  sep_mem_joinSep (by simpa using two_le_length_splitOnChar h45) (by simp)

theorem formatPart_idem (t : Str) : formatPart (formatPart t) = formatPart t := by
  by_cases h1 : toLowerStr t ∈ particles
  · have hft : formatPart t = toLowerStr t := by rw [formatPart, if_pos h1]
    rw [hft, formatPart, toLowerStr_idem, if_pos h1]
  · by_cases h2 : (45 : Nat) ∈ t
    · have hft : formatPart t = joinSep [45] ((splitOnChar 45 t).map capitalize) := by
        rw [formatPart, if_neg h1, if_pos h2]
      rw [hft]
      have hps : ∀ p ∈ (splitOnChar 45 t).map capitalize, (45 : Nat) ∉ p := by
        intro p hp
        rcases List.mem_map.1 hp with ⟨q, hq, rfl⟩
        intro h45
        rcases mem_capitalize h45 with ⟨d, hd, e | e⟩
        · have hd45 : d = 45 := upperChar_eq_hyphen.1 e.symm
          exact sep_not_mem_splitOnChar hq (hd45 ▸ hd)
        · have hd45 : d = 45 := lowerChar_eq_hyphen.1 e.symm
          exact sep_not_mem_splitOnChar hq (hd45 ▸ hd)
      have hne : (splitOnChar 45 t).map capitalize ≠ [] := by
        simpa using splitOnChar_ne_nil 45 t
      have h45o : (45 : Nat) ∈ joinSep [45] ((splitOnChar 45 t).map capitalize) :=
        hyphen_mem_formatPart h2
      rw [formatPart]
      have hnp : toLowerStr (joinSep [45] ((splitOnChar 45 t).map capitalize)) ∉ particles := by
        intro hin
        have h45' : (45 : Nat) ∈ toLowerStr (joinSep [45] ((splitOnChar 45 t).map capitalize)) :=
          List.mem_map.2 ⟨45, h45o, by decide⟩
        have hpar : ∀ q ∈ particles, (45 : Nat) ∉ q := by decide
        exact hpar _ hin h45'
      rw [if_neg hnp, if_pos h45o, splitOnChar_joinSep hne hps, List.map_map]
      simp only [Function.comp_def]
      rw [List.map_congr_left fun q _ => capitalize_idem q]
    · have hft : formatPart t = capitalize t := by rw [formatPart, if_neg h1, if_neg h2]
      rw [hft, formatPart, toLowerStr_capitalize, if_neg h1]
      have h45 : (45 : Nat) ∉ capitalize t := by
        intro hc
        rcases mem_capitalize hc with ⟨d, hd, e | e⟩
        · exact h2 (upperChar_eq_hyphen.1 e.symm ▸ hd)
        · exact h2 (lowerChar_eq_hyphen.1 e.symm ▸ hd)
      rw [if_neg h45, capitalize_idem]

theorem formatPart_ne_nil {t : Str} (ht : t ≠ []) : formatPart t ≠ [] := by
  rw [formatPart]
  split
  · simpa [toLowerStr] using ht
  · split
    · intro e
      rename_i h45
      have hm := hyphen_mem_formatPart h45
      rw [e] at hm
      simp at hm
    · cases t with
      | nil => exact absurd rfl ht
      | cons a as => simp [capitalize]

theorem mem_formatPart {t : Str} {c : Nat} (h : c ∈ formatPart t) :
    c = 45 ∨ ∃ d ∈ t, c = upperChar d ∨ c = lowerChar d := by
  rw [formatPart] at h
  split at h
  · rcases List.mem_map.1 h with ⟨d, hd, rfl⟩
    exact Or.inr ⟨d, hd, Or.inr rfl⟩
  · split at h
    · rcases mem_joinSep h with h45 | ⟨x, hx, hcx⟩
      · simp at h45
        exact Or.inl h45
      · rcases List.mem_map.1 hx with ⟨q, hq, rfl⟩
        rcases mem_capitalize hcx with ⟨d, hd, hor⟩
        exact Or.inr ⟨d, mem_of_mem_splitOnChar hq d hd, hor⟩
    · rcases mem_capitalize h with ⟨d, hd, hor⟩
      exact Or.inr ⟨d, hd, hor⟩

theorem formatPart_no_ws {t : Str} (ht : ∀ c ∈ t, isWs c = false) :
    ∀ c ∈ formatPart t, isWs c = false := by
  intro c hc
  rcases mem_formatPart hc with rfl | ⟨d, hd, rfl | rfl⟩
  · decide
  · rw [isWs_upperChar]; exact ht d hd
  · rw [isWs_lowerChar]; exact ht d hd

/-! ### capitalize_name lemmas -/

theorem splitWSAux_mem {s : Str} :
    ∀ {acc t : Str}, t ∈ splitWSAux s acc → ∀ c ∈ t, c ∈ s ∨ c ∈ acc := by
  induction s with
  | nil =>
    intro acc t ht c hc
    by_cases h : acc.isEmpty <;> simp [splitWSAux, h] at ht
    subst ht
    exact Or.inr (List.mem_reverse.1 hc)
  | cons a as ih =>
    intro acc t ht c hc
    by_cases ha : isWs a
    · rw [splitWSAux, ha] at ht
      simp only [if_true] at ht
      by_cases h : acc.isEmpty
      · rw [if_pos h] at ht
        rcases ih ht c hc with h' | h'
        · exact Or.inl (by simp [h'])
        · simp at h'
      · rw [if_neg h] at ht
        rcases List.mem_cons.1 ht with rfl | ht
        · exact Or.inr (List.mem_reverse.1 hc)
        · rcases ih ht c hc with h' | h'
          · exact Or.inl (by simp [h'])
          · simp at h'
    · rw [splitWSAux, eq_false_of_ne_true ha] at ht
      simp only [Bool.false_eq_true, if_false] at ht
      rcases ih ht c hc with h' | h'
      · exact Or.inl (by simp [h'])
      · rcases List.mem_cons.1 h' with rfl | h'
        · exact Or.inl (by simp)
        · exact Or.inr h'

theorem mem_of_mem_splitWS {s t : Str} (ht : t ∈ splitWS s) : ∀ c ∈ t, c ∈ s := by
  intro c hc
  rcases splitWSAux_mem ht c hc with h | h
  · exact h
  · simp at h

theorem capitalize_name_tokens (s : Str) :
    ∀ t ∈ (splitWS s).map formatPart, t ≠ [] ∧ ∀ c ∈ t, isWs c = false := by
  intro t ht
  rcases List.mem_map.1 ht with ⟨u, hu, rfl⟩
  obtain ⟨h1, h2⟩ := splitWS_tokens u hu
  exact ⟨formatPart_ne_nil h1, formatPart_no_ws h2⟩

theorem splitWS_capitalize_name (s : Str) :
    splitWS (capitalize_name s) = (splitWS s).map formatPart := by
  unfold capitalize_name
  exact splitWS_joinSep (capitalize_name_tokens s)

theorem capitalize_name_idem (s : Str) :
    capitalize_name (capitalize_name s) = capitalize_name s := by
  conv_lhs => rw [capitalize_name]
  rw [splitWS_capitalize_name, List.map_map]
  simp only [Function.comp_def]
  rw [List.map_congr_left fun t _ => formatPart_idem t]
  rfl

theorem joinSep_append_single {sep : Str} {l : List Str} (h : l ≠ []) (x : Str) :
    joinSep sep (l ++ [x]) = joinSep sep l ++ sep ++ x := by
  induction l with
  | nil => exact absurd rfl h
  | cons a l' ih =>
    cases l' with
    | nil => simp [joinSep]
    | cons b l'' =>
      have e2 : (b :: l'') ++ [x] = b :: (l'' ++ [x]) := by simp
      have e1 : (a :: b :: l'') ++ [x] = a :: (b :: (l'' ++ [x])) := by simp
      rw [e1, joinSep_cons_cons, ← e2, ih (by simp), joinSep_cons_cons]
      simp [List.append_assoc]

theorem reverse_joinSep32 (ts : List Str) :
    (joinSep [32] ts).reverse = joinSep [32] ((ts.map List.reverse).reverse) := by
  induction ts with
  | nil => rfl
  | cons t ts' ih =>
    cases ts' with
    | nil => simp [joinSep]
    | cons t2 ts'' =>
      rw [joinSep_cons_cons, List.reverse_append, List.reverse_append, ih]
      have hne : (((t2 :: ts'').map List.reverse).reverse : List Str) ≠ [] := by simp
      simp only [List.reverse_singleton]
      rw [← List.append_assoc, ← joinSep_append_single hne t.reverse]
      simp

theorem dropWhile_isWs_joinSep {ts : List Str}
    (h : ∀ t ∈ ts, t ≠ [] ∧ ∀ c ∈ t, isWs c = false) :
    (joinSep [32] ts).dropWhile (fun c => isWs c) = joinSep [32] ts := by
  cases ts with
  | nil => rfl
  | cons t ts' =>
    obtain ⟨h1, h2⟩ := h t (by simp)
    cases t with
    | nil => exact absurd rfl h1
    | cons c0 t'' =>
      have hc0 : isWs c0 = false := h2 c0 (by simp)
      cases ts' with
      | nil =>
        show (joinSep [32] [c0 :: t'']).dropWhile (fun c => isWs c) = _
        simp [joinSep, List.dropWhile_cons, hc0]
      | cons t2 ts'' =>
        rw [joinSep_cons_cons, List.cons_append, List.cons_append, List.dropWhile_cons]
        rw [hc0]
        simp

theorem trimStr_joinSep32 {ts : List Str}
    (h : ∀ t ∈ ts, t ≠ [] ∧ ∀ c ∈ t, isWs c = false) :
    trimStr (joinSep [32] ts) = joinSep [32] ts := by
  unfold trimStr
  rw [dropWhile_isWs_joinSep h, reverse_joinSep32]
  have h' : ∀ t ∈ (ts.map List.reverse).reverse, t ≠ [] ∧ ∀ c ∈ t, isWs c = false := by
    intro t ht
    rw [List.mem_reverse] at ht
    rcases List.mem_map.1 ht with ⟨u, hu, rfl⟩
    obtain ⟨h1, h2⟩ := h u hu
    exact ⟨by simpa using h1, fun c hc => h2 c (List.mem_reverse.1 hc)⟩
  rw [dropWhile_isWs_joinSep h', ← reverse_joinSep32, List.reverse_reverse]

theorem trimStr_capitalize_name (s : Str) :
    trimStr (capitalize_name s) = capitalize_name s :=
  trimStr_joinSep32 (capitalize_name_tokens s)

theorem mem_capitalize_name {s : Str} {c : Nat} (h : c ∈ capitalize_name s) :
    c = 32 ∨ c = 45 ∨ ∃ d ∈ s, c = upperChar d ∨ c = lowerChar d := by
  unfold capitalize_name at h
  rcases mem_joinSep h with h32 | ⟨x, hx, hcx⟩
  · simp at h32
    exact Or.inl h32
  · rcases List.mem_map.1 hx with ⟨u, hu, rfl⟩
    rcases mem_formatPart hcx with rfl | ⟨d, hd, hor⟩
    · exact Or.inr (Or.inl rfl)
    · exact Or.inr (Or.inr ⟨d, mem_of_mem_splitWS hu d hd, hor⟩)

theorem slash_not_mem_capitalize_name {s : Str} (hs : (47 : Nat) ∉ s) :
    (47 : Nat) ∉ capitalize_name s := by
  intro h
  rcases mem_capitalize_name h with h32 | h45 | ⟨d, hd, e | e⟩
  · exact absurd h32 (by decide)
  · exact absurd h45 (by decide)
  · exact hs (upperChar_eq_slash.1 e.symm ▸ hd)
  · exact hs (lowerChar_eq_slash.1 e.symm ▸ hd)

/-! ### format_name idempotence -/

theorem sepSlash_eq : str " / " = [32, 47, 32] := by decide

theorem map_cn_trim_modifyHead_ws {L : List Str} :
    (L.modifyHead fun q => 32 :: q).map (fun n => capitalize_name (trimStr n)) =
      L.map fun n => capitalize_name (trimStr n) := by
  cases L with
  | nil => rfl
  | cons q L' =>
    show (capitalize_name (trimStr (32 :: q)) :: L'.map fun n => capitalize_name (trimStr n)) = _
    rw [trimStr_cons_ws (by decide) q]
    rfl

theorem splitOnChar_joinSepSlash {bs : List Str} (hne : bs ≠ [])
    (hb : ∀ b ∈ bs, (47 : Nat) ∉ b ∧ trimStr b = b ∧ capitalize_name b = b) :
    (splitOnChar 47 (joinSep (str " / ") bs)).map (fun n => capitalize_name (trimStr n)) = bs := by
  induction bs with
  | nil => exact absurd rfl hne
  | cons b bs' ih =>
    cases bs' with
    | nil =>
      have h1 : joinSep (str " / ") [b] = b ++ [] := by simp [joinSep]
      rw [h1, splitOnChar_append (hb b (by simp)).1]
      show (List.modifyHead (fun q => b ++ q) [[]]).map (fun n => capitalize_name (trimStr n)) = _
      simp only [List.modifyHead, List.append_nil, List.map_cons, List.map_nil]
      rw [(hb b (by simp)).2.1, (hb b (by simp)).2.2]
    | cons b2 bs'' =>
      rw [joinSep_cons_cons, sepSlash_eq]
      have e1 : b ++ [32, 47, 32] ++ joinSep [32, 47, 32] (b2 :: bs'')
          = (b ++ [32]) ++ 47 :: (32 :: joinSep [32, 47, 32] (b2 :: bs'')) := by
        simp
      rw [e1]
      have hb47 : (47 : Nat) ∉ b ++ [32] := by
        intro h
        rcases List.mem_append.1 h with h | h
        · exact (hb b (by simp)).1 h
        · simp at h
      rw [splitOnChar_append hb47, splitOnChar_cons_self]
      have e2 : (32 :: joinSep [32, 47, 32] (b2 :: bs'')) = [32] ++ joinSep [32, 47, 32] (b2 :: bs'') := rfl
      rw [e2, splitOnChar_append (by simp : (47 : Nat) ∉ [32])]
      cases hL : splitOnChar 47 (joinSep [32, 47, 32] (b2 :: bs'')) with
      | nil => exact absurd hL (splitOnChar_ne_nil _ _)
      | cons q0 qs =>
        show ((b ++ [32] ++ []) :: List.modifyHead (fun q => 32 :: q) (q0 :: qs)).map
            (fun n => capitalize_name (trimStr n)) = b :: b2 :: bs''
        rw [List.map_cons]
        have e3 : capitalize_name (trimStr (b ++ [32] ++ [])) = b := by
          rw [List.append_nil, trimStr_append_ws (by decide) b, (hb b (by simp)).2.1,
            (hb b (by simp)).2.2]
        rw [e3, map_cn_trim_modifyHead_ws]
        have ihr := ih (by simp) fun x hx => hb x (by simp [hx])
        rw [sepSlash_eq] at ihr
        rw [hL] at ihr
        rw [ihr]

theorem format_name_of_no_slash {name : Str} (h : (47 : Nat) ∉ name) :
    format_name name = capitalize_name name := by
  rw [format_name, if_neg h]

theorem format_name_of_slash {name : Str} (h : (47 : Nat) ∈ name) :
    format_name name
      = joinSep (str " / ") ((splitOnChar 47 name).map fun n => capitalize_name (trimStr n)) := by
  rw [format_name, if_pos h]

/-- C1: format_name is idempotent: for every input string x,
format_name (format_name x) equals format_name x. -/
theorem format_name_idem (name : Str) : format_name (format_name name) = format_name name := by
  by_cases h47 : (47 : Nat) ∈ name
  · rw [format_name_of_slash h47]
    have hb : ∀ b ∈ (splitOnChar 47 name).map fun n => capitalize_name (trimStr n),
        (47 : Nat) ∉ b ∧ trimStr b = b ∧ capitalize_name b = b := by
      intro b hbm
      rcases List.mem_map.1 hbm with ⟨q, hq, rfl⟩
      refine ⟨?_, trimStr_capitalize_name _, capitalize_name_idem _⟩
      apply slash_not_mem_capitalize_name
      intro hm
      exact sep_not_mem_splitOnChar hq (mem_trimStr hm)
    have hlen : 2 ≤ ((splitOnChar 47 name).map fun n => capitalize_name (trimStr n)).length := by
      simpa using two_le_length_splitOnChar h47
    have h47out : (47 : Nat) ∈ joinSep (str " / ")
        ((splitOnChar 47 name).map fun n => capitalize_name (trimStr n)) :=
      sep_mem_joinSep hlen (by decide)
    rw [format_name_of_slash h47out]
    rw [splitOnChar_joinSepSlash (by simpa using splitOnChar_ne_nil 47 name) hb]
  · rw [format_name_of_no_slash h47]
    rw [format_name_of_no_slash (slash_not_mem_capitalize_name h47)]
    exact capitalize_name_idem name

/-! ### Grouping lemmas -/

theorem mem_firstOccur {α : Type} [DecidableEq α] {l : List α} {x : α} :
    x ∈ firstOccur l ↔ x ∈ l := by
  induction l with
  | nil => simp [firstOccur]
  | cons a as ih =>
    simp only [firstOccur, List.mem_cons]
    constructor
    · rintro (rfl | h)
      · exact Or.inl rfl
      · exact Or.inr (ih.1 (List.mem_filter.1 h).1)
    · rintro (rfl | h)
      · exact Or.inl rfl
      · by_cases e : x = a
        · exact Or.inl e
        · exact Or.inr (List.mem_filter.2 ⟨ih.2 h, by simpa using e⟩)

theorem nodup_firstOccur {α : Type} [DecidableEq α] (l : List α) : (firstOccur l).Nodup := by
  induction l with
  | nil => simp [firstOccur]
  | cons a as ih =>
    rw [firstOccur]
    refine List.Nodup.cons ?_ (ih.filter _)
    intro hmem
    have h := (List.mem_filter.1 hmem).2
    simp at h

theorem firstOccur_append_single {α : Type} [DecidableEq α] (l : List α) (k : α) :
    firstOccur (l ++ [k]) = if k ∈ l then firstOccur l else firstOccur l ++ [k] := by
  induction l with
  | nil => simp [firstOccur]
  | cons a as ih =>
    rw [List.cons_append, firstOccur, ih, firstOccur]
    by_cases hk : k ∈ as
    · rw [if_pos hk, if_pos (by simp [hk])]
    · rw [if_neg hk]
      by_cases hka : k = a
      · subst hka
        rw [if_pos (by simp), List.filter_append]
        simp
      · rw [if_neg (by simp [hka, hk]), List.filter_append]
        simp [hka]

theorem insertGrouped_not_mem {gs : List (GroupKey × List EventUnit)} {k : GroupKey}
    (h : ∀ p ∈ gs, p.1 ≠ k) (e : EventUnit) :
    insertGrouped gs k e = gs ++ [(k, [e])] := by
  induction gs with
  | nil => rfl
  | cons p rest ih =>
    obtain ⟨k', es⟩ := p
    simp only [insertGrouped]
    rw [if_neg (h (k', es) (by simp))]
    rw [ih fun q hq => h q (by simp [hq])]
    simp

theorem insertGrouped_map {e : EventUnit} {m : List GroupKey} {k : GroupKey} (hm : m.Nodup)
    (hk : k ∈ m) (f g : GroupKey → List EventUnit)
    (hfg : ∀ k' ∈ m, k' ≠ k → g k' = f k') (hgk : g k = f k ++ [e]) :
    insertGrouped (m.map fun k' => (k', f k')) k e = m.map fun k' => (k', g k') := by
  induction m with
  | nil => simp at hk
  | cons a m' ih =>
    rw [List.map_cons, List.map_cons]
    by_cases hak : a = k
    · subst hak
      simp only [insertGrouped, if_true]
      rw [hgk]
      congr 1
      apply List.map_congr_left
      intro k' hk'
      have hne : k' ≠ a := by
        intro e'
        subst e'
        exact (List.nodup_cons.1 hm).1 hk'
      rw [hfg k' (by simp [hk']) hne]
    · simp only [insertGrouped, if_neg hak]
      have hk' : k ∈ m' := by
        rcases List.mem_cons.1 hk with e' | h'
        · exact absurd e'.symm hak
        · exact h'
      congr 1
      · rw [hfg a (by simp) hak]
      · exact ih (List.nodup_cons.1 hm).2 hk' fun x hx hne => hfg x (by simp [hx]) hne

theorem group_events_concat (events : List EventUnit) (e : EventUnit) :
    group_events (events ++ [e]) = insertGrouped (group_events events) (eventKey e) e := by
  unfold group_events
  rw [List.foldl_append]
  rfl

theorem group_events_eq_spec (events : List EventUnit) :
    group_events events = groupEventsSpec events := by
  induction events using List.reverseRecOn with
  | nil => rfl
  | append_singleton es e ih =>
    rw [group_events_concat, ih]
    unfold groupEventsSpec
    rw [List.map_append, List.map_singleton, firstOccur_append_single]
    have hfilter : ∀ k : GroupKey,
        ((es ++ [e]).filter fun x => decide (eventKey x = k))
          = (es.filter fun x => decide (eventKey x = k))
            ++ (if eventKey e = k then [e] else []) := by
      intro k
      rw [List.filter_append]
      by_cases h : eventKey e = k <;> simp [h]
    by_cases hk : eventKey e ∈ es.map eventKey
    · rw [if_pos hk]
      have happ := insertGrouped_map (e := e) (nodup_firstOccur (es.map eventKey))
        (mem_firstOccur.2 hk)
        (fun k => es.filter fun x => decide (eventKey x = k))
        (fun k => (es ++ [e]).filter fun x => decide (eventKey x = k))
        (fun k' _ hne => by simp only [hfilter]; rw [if_neg fun h => hne h.symm]; simp)
        (by simp only [hfilter, if_true])
      rw [happ]
    · rw [if_neg hk]
      rw [insertGrouped_not_mem ?_ e, List.map_append]
      · congr 1
        · apply List.map_congr_left
          intro k' hk'
          have hne : eventKey e ≠ k' := by
            intro h'
            exact hk (h' ▸ mem_firstOccur.1 hk')
          rw [hfilter, if_neg hne]
          simp
        · rw [List.map_singleton, hfilter, if_pos rfl]
          have hnil : (es.filter fun x => decide (eventKey x = eventKey e)) = [] := by
            rw [List.filter_eq_nil_iff]
            intro x hx
            simp only [decide_eq_true_eq]
            intro h'
            exact hk (h' ▸ List.mem_map.2 ⟨x, hx, rfl⟩)
          rw [hnil]
          simp
      · intro p hp
        rcases List.mem_map.1 hp with ⟨k', hk', rfl⟩
        intro h'
        exact hk (h' ▸ mem_firstOccur.1 hk')

theorem lookupKey_map_filter (events : List EventUnit) (m : List GroupKey) (k : GroupKey) :
    lookupKey (m.map fun k' => (k', events.filter fun e => decide (eventKey e = k'))) k
      = if k ∈ m then some (events.filter fun e => decide (eventKey e = k)) else none := by
  induction m with
  | nil => simp [lookupKey]
  | cons a m' ih =>
    rw [List.map_cons, lookupKey]
    by_cases hak : a = k
    · subst hak
      rw [if_pos rfl, if_pos (by simp)]
    · rw [if_neg hak, ih]
      by_cases hk : k ∈ m'
      · rw [if_pos hk, if_pos (by simp [hk])]
      · rw [if_neg hk, if_neg ?_]
        intro h
        rcases List.mem_cons.1 h with e' | h'
        · exact hak e'.symm
        · exact hk h'

theorem sum_map_add_nat {α : Type} (l : List α) (f g : α → Nat) :
    (l.map fun x => f x + g x).sum = (l.map f).sum + (l.map g).sum := by
  induction l with
  | nil => rfl
  | cons a l' ih =>
    simp only [List.map_cons, List.sum_cons, ih]
    omega

theorem sum_indicator_one {K : List GroupKey} (hnd : K.Nodup) {x : GroupKey} (hx : x ∈ K) :
    (K.map fun k => if x = k then (1 : Nat) else 0).sum = 1 := by
  induction K with
  | nil => simp at hx
  | cons a K' ih =>
    rw [List.map_cons, List.sum_cons]
    rcases List.mem_cons.1 hx with rfl | hx'
    · rw [if_pos rfl]
      have hz : (K'.map fun k => if x = k then (1 : Nat) else 0).sum = 0 := by
        apply List.sum_eq_zero
        intro n hn
        rcases List.mem_map.1 hn with ⟨k, hk, rfl⟩
        have hne : x ≠ k := by
          intro e'
          subst e'
          exact (List.nodup_cons.1 hnd).1 hk
        rw [if_neg hne]
      rw [hz]
    · have hne : x ≠ a := by
        intro e'
        subst e'
        exact (List.nodup_cons.1 hnd).1 hx'
      rw [if_neg hne, ih (List.nodup_cons.1 hnd).2 hx']

theorem sum_filter_lengths (events : List EventUnit) {K : List GroupKey} (hnd : K.Nodup)
    (hcov : ∀ e ∈ events, eventKey e ∈ K) :
    (K.map fun k => (events.filter fun e => decide (eventKey e = k)).length).sum
      = events.length := by
  induction events with
  | nil => simp
  | cons e es ih =>
    have step : ∀ k : GroupKey, ((e :: es).filter fun x => decide (eventKey x = k)).length
        = (if eventKey e = k then 1 else 0)
          + (es.filter fun x => decide (eventKey x = k)).length := by
      intro k
      rw [List.filter_cons]
      by_cases h : eventKey e = k
      · simp [h]
        omega
      · simp [h]
    rw [List.map_congr_left fun k _ => step k, sum_map_add_nat,
      sum_indicator_one hnd (hcov e (by simp)),
      ih fun x hx => hcov x (by simp [hx])]
    simp
    omega

/-! ### Formatter lemmas -/

theorem renderGroup_cons (rt : Str → Str) (d en : Str) (e0 : EventUnit)
    (rest : List EventUnit) :
    renderGroup rt d en (e0 :: rest) =
      if (ausCompetitors (e0 :: rest)).isEmpty then some []
      else if (ausCompetitors (e0 :: rest)).length = 1 ∧ e0.competitors.length = 2 then
        match (ausCompetitors (e0 :: rest)).head?,
              e0.competitors.find? (fun c => decide (c.noc ≠ ausStr)) with
        | some aus_comp, some opponent =>
          some (groupHeading rt d en (e0 :: rest) e0 ++ headToHead aus_comp opponent ++ str "\n")
        | _, _ => none
      else
        some (groupHeading rt d en (e0 :: rest) e0
          ++ multiBullets ((ausCompetitors (e0 :: rest)).map fun c => c.name) ++ str "\n") := rfl

theorem length_filter_le_ausCompetitors {events : List EventUnit} {e : EventUnit}
    (he : e ∈ events) :
    (e.competitors.filter fun c => decide (c.noc = ausStr)).length
      ≤ (ausCompetitors events).length := by
  unfold ausCompetitors
  induction events with
  | nil => simp at he
  | cons a as ih =>
    rw [List.flatMap_cons, List.length_append]
    rcases List.mem_cons.1 he with rfl | he'
    · exact Nat.le_add_right _ _
    · exact le_trans (ih he') (Nat.le_add_left _ _)

theorem find_opponent_isSome {events : List EventUnit} {e0 : EventUnit} (he0 : e0 ∈ events)
    (h1 : (ausCompetitors events).length = 1) (h2 : e0.competitors.length = 2) :
    (e0.competitors.find? fun c => decide (c.noc ≠ ausStr)).isSome := by
  rw [List.find?_isSome]
  by_contra hno
  push_neg at hno
  have hall : ∀ c ∈ e0.competitors, (fun c : Competitor => decide (c.noc = ausStr)) c = true := by
    intro c hc
    have h' := hno c hc
    simp only [decide_eq_true_eq, Decidable.not_not] at h'
    simpa using h'
  have hfil : e0.competitors.filter (fun c => decide (c.noc = ausStr)) = e0.competitors :=
    List.filter_eq_self.2 hall
  have hle := length_filter_le_ausCompetitors he0
  rw [hfil, h2, h1] at hle
  omega

theorem ausCompetitors_not_empty_of_hasAus {events : List EventUnit} {e : EventUnit}
    (he : e ∈ events) (h : hasAus e = true) :
    (ausCompetitors events).isEmpty = false := by
  unfold hasAus at h
  rcases List.any_eq_true.1 h with ⟨c, hc, hcn⟩
  have hmem : c ∈ ausCompetitors events := by
    unfold ausCompetitors
    exact List.mem_flatMap.2 ⟨e, he, List.mem_filter.2 ⟨hc, hcn⟩⟩
  cases hau : ausCompetitors events with
  | nil => rw [hau] at hmem; simp at hmem
  | cons a as => rfl

theorem group_events_member_props {events : List EventUnit} {k : GroupKey}
    {es : List EventUnit} (hmem : (k, es) ∈ group_events events) :
    es = events.filter (fun e => decide (eventKey e = k)) ∧ es ≠ [] := by
  rw [group_events_eq_spec] at hmem
  unfold groupEventsSpec at hmem
  rcases List.mem_map.1 hmem with ⟨k', hk', heq⟩
  have hkk : k' = k := congrArg Prod.fst heq
  subst hkk
  have hes : events.filter (fun e => decide (eventKey e = k')) = es := congrArg Prod.snd heq
  refine ⟨hes.symm, ?_⟩
  have hk : k' ∈ events.map eventKey := mem_firstOccur.1 hk'
  rcases List.mem_map.1 hk with ⟨e, he, hke⟩
  intro hnil
  have hin : e ∈ events.filter fun x => decide (eventKey x = k') :=
    List.mem_filter.2 ⟨he, by simp [hke]⟩
  rw [hes, hnil] at hin
  simp at hin

theorem renderGroup_isSome_of_grouped {units : List EventUnit} {k : GroupKey}
    {es : List EventUnit} (hmem : (k, es) ∈ group_events (units.filter hasAus))
    (rt : Str → Str) (d en : Str) : (renderGroup rt d en es).isSome := by
  obtain ⟨hes, hne⟩ := group_events_member_props hmem
  cases es with
  | nil => exact absurd rfl hne
  | cons e0 rest =>
    rw [renderGroup_cons]
    by_cases hempty : (ausCompetitors (e0 :: rest)).isEmpty
    · rw [if_pos hempty]; rfl
    · rw [if_neg hempty]
      by_cases hb : (ausCompetitors (e0 :: rest)).length = 1 ∧ e0.competitors.length = 2
      · rw [if_pos hb]
        obtain ⟨o, ho⟩ :=
          Option.isSome_iff_exists.1 (find_opponent_isSome (by simp) hb.1 hb.2)
        have hhead : (ausCompetitors (e0 :: rest)).head?.isSome := by
          cases hau : ausCompetitors (e0 :: rest) with
          | nil => rw [hau] at hempty; exact absurd rfl hempty
          | cons a as => rfl
        obtain ⟨a, ha⟩ := Option.isSome_iff_exists.1 hhead
        rw [ha, ho]
        rfl
      · rw [if_neg hb]; rfl

theorem mapM_option_isSome {α β : Type} (f : α → Option β) (l : List α)
    (h : ∀ x ∈ l, (f x).isSome) : (l.mapM f).isSome := by
  induction l with
  | nil => rfl
  | cons a l' ih =>
    rw [List.mapM_cons]
    obtain ⟨b, hb⟩ := Option.isSome_iff_exists.1 (h a (by simp))
    obtain ⟨bs, hbs⟩ := Option.isSome_iff_exists.1 (ih fun x hx => h x (by simp [hx]))
    rw [hb, hbs]
    rfl

theorem format_schedule_isSome (rt : Str → Str) (td : Str) (units : List EventUnit) :
    (format_schedule rt td units).isSome := by
  unfold format_schedule
  split
  · rfl
  · rw [Option.isSome_map']
    apply mapM_option_isSome
    intro p hp
    obtain ⟨k, es⟩ := p
    exact renderGroup_isSome_of_grouped hp rt k.1 k.2

theorem format_schedule_no_aus {units : List EventUnit} (h0 : units ≠ [])
    (h : ∀ e ∈ units, ∀ c ∈ e.competitors, c.noc ≠ ausStr) (rt : Str → Str) (td : Str) :
    format_schedule rt td units = some (reportHeader td) := by
  unfold format_schedule
  rw [if_neg (by simpa [List.isEmpty_iff] using h0)]
  have hfil : units.filter hasAus = [] := by
    rw [List.filter_eq_nil_iff]
    intro e he hany
    rcases List.any_eq_true.1 hany with ⟨c, hc, hcn⟩
    exact h e he c hc (by simpa using hcn)
  rw [hfil]
  show (some [] : Option (List Str)).map (fun blocks => reportHeader td ++ blocks.flatten)
    = some (reportHeader td)
  simp

theorem reportHeader_ne_noData (td : Str) : reportHeader td ≠ noDataMsg := by
  intro h
  unfold reportHeader noDataMsg at h
  rw [(by decide : str "# 🇦🇺 Olympic Events\n\n## "
    = 35 :: str " 🇦🇺 Olympic Events\n\n## ")] at h
  rw [(by decide : str "No schedule data available."
    = 78 :: str "o schedule data available.")] at h
  rw [List.cons_append, List.cons_append] at h
  injection h with h1 h2
  exact absurd h1 (by decide)

theorem pySortedSet_mem (l : List Str) (x : Str) : x ∈ pySortedSet l ↔ x ∈ l := by
  unfold pySortedSet
  rw [(List.perm_insertionSort _ _).mem_iff]
  exact mem_firstOccur

theorem pySortedSet_pairwise_lt (l : List Str) : (pySortedSet l).Pairwise (· < ·) := by
  have hs : (pySortedSet l).Pairwise (· ≤ ·) := List.sorted_insertionSort _ _
  have hnd : (pySortedSet l).Nodup :=
    (List.perm_insertionSort _ _).nodup_iff.2 (nodup_firstOccur l)
  exact (hs.and hnd).imp fun h => lt_of_le_of_ne h.1 h.2

theorem mkEventUnit_no_TBD (raw : RawEventUnit) :
    ∀ c ∈ (mkEventUnit raw).competitors, c.code ≠ str "TBD" ∧ c.name ≠ str "TBD" := by
  intro c hc
  have hc' : c ∈ (match raw.competitors with
      | none => ([] : List Competitor)
      | some comps =>
        comps.filter fun x => decide (x.code ≠ str "TBD") && decide (x.name ≠ str "TBD")) := hc
  cases hraw : raw.competitors with
  | none => rw [hraw] at hc'; simp at hc'
  | some comps =>
    rw [hraw] at hc'
    have h2 := (List.mem_filter.1 hc').2
    simpa using h2

/-- C6: for a group with exactly one target-country competitor whose first
event has exactly 2 total competitors, an opponent with a non-AUS NOC is
found, and the rendered line is "* AUS vs [opponent NOC]" when the target
competitor's formatted name equals the team placeholder "Australia", and
otherwise "* [target name] (AUS) vs [opponent name] ([opponent NOC])", both
names passed through format_name. -/
theorem renderGroup_head_to_head (rt : Str → Str) (d en : Str) (e0 : EventUnit)
    (rest : List EventUnit) (c : Competitor)
    (h1 : ausCompetitors (e0 :: rest) = [c]) (h2 : e0.competitors.length = 2) :
    ∃ opponent, e0.competitors.find? (fun x => decide (x.noc ≠ ausStr)) = some opponent
      ∧ opponent.noc ≠ ausStr
      ∧ renderGroup rt d en (e0 :: rest)
        = some (groupHeading rt d en (e0 :: rest) e0
            ++ (if format_name c.name = str "Australia"
                then str "* AUS vs " ++ opponent.noc ++ str "\n"
                else str "* " ++ format_name c.name ++ str " (AUS) vs "
                  ++ format_name opponent.name ++ str " (" ++ opponent.noc ++ str ")\n")
            ++ str "\n") := by
  have hlen : (ausCompetitors (e0 :: rest)).length = 1 := by rw [h1]; rfl
  obtain ⟨opp, hopp⟩ :=
    Option.isSome_iff_exists.1 (find_opponent_isSome (by simp) hlen h2)
  refine ⟨opp, hopp, ?_, ?_⟩
  · have hp := List.find?_some hopp
    simpa using hp
  · rw [renderGroup_cons, h1]
    rw [if_neg (by simp)]
    rw [if_pos ⟨rfl, h2⟩]
    rw [hopp]
    simp only [List.head?_cons]
    rfl

/-- C7: for a group with more than one target-country event, the rendered
block is a heading carrying a start and end time range, the end time rendered
from the last event's start timestamp, followed by a races sub-line listing,
comma-joined and in event order, the first digit capture of the pattern
"Race [digits]" from each event's unit name, events without a match being
silently omitted, followed by the competitor bullets. -/
theorem renderGroup_multi_event (rt : Str → Str) (d en : Str) (e0 : EventUnit)
    (rest : List EventUnit) (h : 1 < ((e0 :: rest).filter hasAus).length) :
    ∃ bullets,
      renderGroup rt d en (e0 :: rest)
        = some (str "### " ++ rt e0.startDate ++ str " - "
            ++ rt (((e0 :: rest).getLast?).getD e0).startDate ++ str " - "
            ++ groupTitle d en (e0 :: rest) ++ str "\n"
            ++ racesLine (e0 :: rest) ++ bullets)
      ∧ racesLine (e0 :: rest)
        = str "#### Races: "
          ++ joinSep (str ", ") ((e0 :: rest).filterMap fun e => findRace e.eventUnitName)
          ++ str "\n" := by
  have hne : (ausCompetitors (e0 :: rest)).isEmpty = false := by
    have hex : ∃ e ∈ (e0 :: rest), hasAus e = true := by
      rcases hfil : (e0 :: rest).filter hasAus with _ | ⟨a, as⟩
      · rw [hfil] at h; simp at h
      · have ha : a ∈ (e0 :: rest).filter hasAus := by rw [hfil]; simp
        have hm := List.mem_filter.1 ha
        exact ⟨a, hm.1, hm.2⟩
    obtain ⟨e, he, hase⟩ := hex
    exact ausCompetitors_not_empty_of_hasAus he hase
  have hheading : groupHeading rt d en (e0 :: rest) e0
      = str "### " ++ rt e0.startDate ++ str " - "
        ++ rt (((e0 :: rest).getLast?).getD e0).startDate ++ str " - "
        ++ groupTitle d en (e0 :: rest) ++ str "\n" ++ racesLine (e0 :: rest) := by
    unfold groupHeading
    rw [if_pos h]
  rw [renderGroup_cons, if_neg (by simp [hne])]
  by_cases hb : (ausCompetitors (e0 :: rest)).length = 1 ∧ e0.competitors.length = 2
  · rw [if_pos hb]
    obtain ⟨o, ho⟩ :=
      Option.isSome_iff_exists.1 (find_opponent_isSome (by simp) hb.1 hb.2)
    have hhead : ∃ a, (ausCompetitors (e0 :: rest)).head? = some a := by
      cases hau : ausCompetitors (e0 :: rest) with
      | nil => rw [hau] at hne; simp at hne
      | cons a as => exact ⟨a, rfl⟩
    obtain ⟨a, ha⟩ := hhead
    rw [ha, ho]
    refine ⟨headToHead a o ++ str "\n", ?_, rfl⟩
    show some (groupHeading rt d en (e0 :: rest) e0 ++ headToHead a o ++ str "\n") = _
    rw [hheading]
    simp only [List.append_assoc]
  · rw [if_neg hb]
    refine ⟨multiBullets ((ausCompetitors (e0 :: rest)).map fun c => c.name) ++ str "\n",
      ?_, rfl⟩
    show some (groupHeading rt d en (e0 :: rest) e0
      ++ multiBullets ((ausCompetitors (e0 :: rest)).map fun c => c.name) ++ str "\n") = _
    rw [hheading]
    simp only [List.append_assoc]

/-! ### Claim theorems, counterexamples and witnesses -/

/-- C6 witness: the head-to-head theorem applied to the concrete group
consisting of the single event h2hEvent. -/
theorem renderGroup_head_to_head_witness :
    ∃ opponent, h2hEvent.competitors.find? (fun x => decide (x.noc ≠ ausStr)) = some opponent
      ∧ opponent.noc ≠ ausStr
      ∧ renderGroup rtFixed (str "Hockey") (str "Final") [h2hEvent]
        = some (groupHeading rtFixed (str "Hockey") (str "Final") [h2hEvent] h2hEvent
            ++ (if format_name ausTeamComp.name = str "Australia"
                then str "* AUS vs " ++ opponent.noc ++ str "\n"
                else str "* " ++ format_name ausTeamComp.name ++ str " (AUS) vs "
                  ++ format_name opponent.name ++ str " (" ++ opponent.noc ++ str ")\n")
            ++ str "\n") :=
  renderGroup_head_to_head rtFixed (str "Hockey") (str "Final") h2hEvent [] ausTeamComp
    (by decide) (by decide)

example : (format_schedule rtFixed (str "27 July") [h2hEvent]).getD []
    = str "# 🇦🇺 Olympic Events\n\n## 27 July\n\n### 00:00 - 🏅 Hockey: Final\n* AUS vs USA\n\n" := by
  decide

/-- C7 witness: the multi-event theorem applied to the concrete group of the
two race events; the races sub-line there lists only "2". -/
theorem renderGroup_multi_event_witness :
    (∃ bullets,
      renderGroup rtFixed (str "Rowing") (str "Heat") [raceEvent1, raceEvent2]
        = some (str "### " ++ rtFixed raceEvent1.startDate ++ str " - "
            ++ rtFixed ((([raceEvent1, raceEvent2] : List EventUnit).getLast?).getD
                raceEvent1).startDate ++ str " - "
            ++ groupTitle (str "Rowing") (str "Heat") [raceEvent1, raceEvent2] ++ str "\n"
            ++ racesLine [raceEvent1, raceEvent2] ++ bullets)
      ∧ racesLine [raceEvent1, raceEvent2]
        = str "#### Races: "
          ++ joinSep (str ", ")
            (([raceEvent1, raceEvent2] : List EventUnit).filterMap fun e =>
              findRace e.eventUnitName)
          ++ str "\n") :=
  renderGroup_multi_event rtFixed (str "Rowing") (str "Heat") raceEvent1 [raceEvent2]
    (by decide)

example : racesLine [raceEvent1, raceEvent2] = str "#### Races: 2\n" := by decide

/-- C2 counterexample: with two raw AUS names "jane doe" and "Jane doe" that
both format to "Jane Doe", the multi-competitor branch renders two identical
bullet lines, so the bullets are not de-duplicated by formatted name as the
claim states (de-duplication happens on the raw names before formatting). -/
theorem format_schedule_dedup_by_raw_name_cex :
    countOccur (str "* Jane Doe\n")
      ((format_schedule rtFixed (str "27 July") [dupNameEvent]).getD []) = 2 := by
  decide

/-- C2 amended: the multi-competitor bullet block renders one bullet per
distinct raw target-country competitor name, in strictly increasing
lexicographic order of the raw names, each bullet being "* " followed by the
format_name image of the raw name; the rendered set of raw names is exactly
the set of raw names of the group's target-country competitors. -/
theorem multi_bullets_raw_sorted (names : List Str) :
    multiBullets names
      = ((pySortedSet names).map fun n => str "* " ++ format_name n ++ str "\n").flatten
    ∧ (pySortedSet names).Pairwise (· < ·)
    ∧ ∀ x, x ∈ pySortedSet names ↔ x ∈ names :=
  ⟨rfl, pySortedSet_pairwise_lt names, pySortedSet_mem names⟩

/-- C3 counterexample: format_name "van der berg" is not "van der Berg",
because "der" is not in the fixed particle set and is title-cased. -/
theorem format_name_van_der_berg_cex :
    format_name (str "van der berg") ≠ str "van der Berg" := by decide

/-- C3 amended: format_name "van der berg" returns "van Der Berg": only the
tokens of the fixed particle set (von, van, de, du, la, le) stay lowercase;
"der" is not in the set and is title-cased. -/
theorem format_name_van_der_berg :
    format_name (str "van der berg") = str "van Der Berg" := by decide

/-- C4: group_events maps each key (disciplineName, eventUnitName with race
suffixes removed) to exactly the subsequence of input events carrying that
key in original relative order, lists the keys in first-encounter order, and
preserves the total element count. -/
theorem group_events_correct (events : List EventUnit) :
    (group_events events).map Prod.fst = firstOccur (events.map eventKey)
    ∧ (∀ k : GroupKey, lookupKey (group_events events) k
        = if k ∈ events.map eventKey
          then some (events.filter fun e => decide (eventKey e = k)) else none)
    ∧ ((group_events events).map fun p => p.2.length).sum = events.length := by
  refine ⟨?_, ?_, ?_⟩
  · rw [group_events_eq_spec]
    unfold groupEventsSpec
    rw [List.map_map]
    have hfst : (Prod.fst ∘ fun k : GroupKey =>
        (k, events.filter fun e => decide (eventKey e = k))) = id := rfl
    rw [hfst, List.map_id]
  · intro k
    rw [group_events_eq_spec]
    unfold groupEventsSpec
    rw [lookupKey_map_filter]
    by_cases hk : k ∈ events.map eventKey
    · rw [if_pos (mem_firstOccur.2 hk), if_pos hk]
    · rw [if_neg (fun h => hk (mem_firstOccur.1 h)), if_neg hk]
  · rw [group_events_eq_spec]
    unfold groupEventsSpec
    rw [List.map_map]
    simp only [Function.comp_def]
    exact sum_filter_lengths events (nodup_firstOccur _)
      fun e he => mem_firstOccur.2 (List.mem_map.2 ⟨e, he, rfl⟩)

example : group_events [raceEvent1, raceEvent2]
    = [((str "Rowing", str "Heat"), [raceEvent1]),
       ((str "Rowing", str "Final"), [raceEvent2])] := by decide

/-- C5 counterexample: a payload with an absent units field does not yield
the no-data sentinel; model construction fails, because units is a required
field with no default. -/
theorem missing_units_fails_validation :
    mkOlympicSchedule none = Except.error () := rfl

/-- C5 amended: an empty units list is treated as no data, format_schedule
returning exactly the sentinel "No schedule data available."; an absent units
field instead fails model validation. -/
theorem empty_units_no_data (rt : Str → Str) (td : Str) :
    format_schedule rt td [] = some noDataMsg := rfl

/-- C8: after ingestion, no event unit contains a competitor whose code or
name is the placeholder "TBD": the filter runs at model construction, both
for a single event unit and for a whole successfully validated schedule,
before any filtering, grouping or formatting. -/
theorem ingestion_excludes_TBD :
    (∀ raw : RawEventUnit, ∀ c ∈ (mkEventUnit raw).competitors,
      ¬(c.code = str "TBD") ∧ ¬(c.name = str "TBD"))
    ∧ ∀ (raws : List RawEventUnit) (sched : OlympicSchedule),
        mkOlympicSchedule (some raws) = Except.ok sched →
        ∀ e ∈ sched.units, ∀ c ∈ e.competitors,
          ¬(c.code = str "TBD") ∧ ¬(c.name = str "TBD") := by
  refine ⟨mkEventUnit_no_TBD, ?_⟩
  intro raws sched h e he c hc
  have hs : sched = ⟨raws.map mkEventUnit⟩ := (Except.ok.inj h).symm
  subst hs
  rcases List.mem_map.1 he with ⟨raw, _, rfl⟩
  exact mkEventUnit_no_TBD raw c hc

/-- C8 witness: ingesting the concrete raw unit with a TBD placeholder keeps
only the named competitor, and that competitor is TBD-free. -/
theorem ingestion_excludes_TBD_witness :
    ¬(alexComp.code = str "TBD") ∧ ¬(alexComp.name = str "TBD") :=
  ingestion_excludes_TBD.1 rawWithTBD alexComp (by decide)

example : (mkEventUnit rawWithTBD).competitors = [alexComp] := by decide

/-- C9: for a non-empty units list in which no competitor of any event has
NOC "AUS", format_schedule returns exactly the report header (title line plus
date line and trailing blank lines) with no group blocks, and not the no-data
sentinel. -/
theorem format_schedule_header_only {units : List EventUnit} (h0 : units ≠ [])
    (h : ∀ e ∈ units, ∀ c ∈ e.competitors, c.noc ≠ ausStr) (rt : Str → Str) (td : Str) :
    format_schedule rt td units = some (reportHeader td)
      ∧ format_schedule rt td units ≠ some noDataMsg := by
  refine ⟨format_schedule_no_aus h0 h rt td, ?_⟩
  rw [format_schedule_no_aus h0 h rt td]
  intro hcontra
  exact reportHeader_ne_noData td (Option.some.inj hcontra)

/-- C9 witness: the header-only theorem applied to the concrete USA-only
event. -/
theorem format_schedule_header_only_witness :
    format_schedule rtFixed (str "27 July") [usaOnlyEvent]
        = some (reportHeader (str "27 July"))
      ∧ format_schedule rtFixed (str "27 July") [usaOnlyEvent] ≠ some noDataMsg :=
  format_schedule_header_only (by decide) (by decide) rtFixed (str "27 July")

/-- C10: in the head-to-head branch the opponent lookup never fails: whenever
the group has exactly one target-country competitor and the first event has
exactly 2 competitors, finding a competitor with a non-AUS NOC succeeds
(were both competitors AUS the group-wide count would be at least 2), and
consequently format_schedule as a whole never hits a failure point. -/
theorem next_opponent_safe :
    (∀ (events : List EventUnit) (e0 : EventUnit), e0 ∈ events →
      (ausCompetitors events).length = 1 → e0.competitors.length = 2 →
      (e0.competitors.find? fun c => decide (c.noc ≠ ausStr)).isSome = true)
    ∧ ∀ (rt : Str → Str) (td : Str) (units : List EventUnit),
        (format_schedule rt td units).isSome = true :=
  ⟨fun _ _ he0 h1 h2 => find_opponent_isSome he0 h1 h2,
   fun rt td units => format_schedule_isSome rt td units⟩

/-- C10 witness: the opponent lookup succeeds on the concrete head-to-head
event. -/
theorem next_opponent_safe_witness :
    (h2hEvent.competitors.find? fun c => decide (c.noc ≠ ausStr)).isSome = true :=
  next_opponent_safe.1 [h2hEvent] h2hEvent (by decide) (by decide) (by decide)
